import Mathlib

/-
Shallow embedding of the ACORN front end (js/dataHandling.js and its two
earlier revisions in js/script.js, js/UI.js, index.html) together with a
spec-modelled fragment of the associative-retrieval backend.

JavaScript numbers are modelled as exact rationals extended with a single
non-finite element `nan`: the scaler's arithmetic on finite inputs can only
leave the finite numbers through the division `0 / 0` (the numerator
`value - min` vanishes whenever the denominator `max - min` does, because
`min = max` forces every element of the list to equal both), so the IEEE
infinities are unreachable in the embedded code paths and are collapsed
into `nan` as well.
-/

/-- A JavaScript number as used by the scaler: a finite rational, or the
non-finite result `nan` produced by `0 / 0`. -/
inductive JSNum where
  | nan : JSNum
  | num : ℚ → JSNum
deriving DecidableEq, Repr

/-- JS division of finite operands: division by zero leaves the finite
numbers (`0 / 0` is NaN; in the embedded code the numerator is always `0`
when the denominator is, so the `±Infinity` branch is unreachable and also
maps to `nan`). -/
def jsDiv (a b : ℚ) : JSNum :=
  if b = 0 then JSNum.nan else JSNum.num (a / b)

/-- `Math.pow` with a natural exponent: `NaN ^ 0 = 1`, `NaN ^ n = NaN`
for `n > 0`, and exact powers on finite numbers. -/
def jsPow (a : JSNum) (n : ℕ) : JSNum :=
  match a with
  | JSNum.nan => if n = 0 then JSNum.num 1 else JSNum.nan
  | JSNum.num q => JSNum.num (q ^ n)

/-- `Math.max` on two values: NaN-propagating, as in IEEE/JS. -/
def jsMax2 (a b : JSNum) : JSNum :=
  match a, b with
  | JSNum.num x, JSNum.num y => JSNum.num (max x y)
  | _, _ => JSNum.nan

/-- `Math.min` on two values: NaN-propagating, as in IEEE/JS. -/
def jsMin2 (a b : JSNum) : JSNum :=
  match a, b with
  | JSNum.num x, JSNum.num y => JSNum.num (min x y)
  | _, _ => JSNum.nan

/-- `Math.min(...docAssoc)` on a list of finite numbers. On the empty
list JS returns `Infinity`; the embedded callers only use the value
through a `map` over the same list, which is empty in that case, so the
default `0` is never observed. -/
def listMin : List ℚ → ℚ
  | [] => 0
  | x :: xs => xs.foldl min x

/-- `Math.max(...docAssoc)` on a list of finite numbers (default for the
empty list as in `listMin`). -/
def listMax : List ℚ → ℚ
  | [] => 0
  | x :: xs => xs.foldl max x

/-- `scaleAssociations` as first written (js/script.js, the revision with
a fixed exponent): min-max normalize, then cube each value. -/
def scaleAssociationsOrig (docAssoc : List ℚ) : List JSNum :=
  let mn := listMin docAssoc
  let mx := listMax docAssoc
  let scaled := docAssoc.map (fun value => jsDiv (value - mn) (mx - mn))
  scaled.map (fun value => jsPow value 3)

/-- The default of the `exp` parameter of the intermediate revision of
`scaleAssociations`. -/
def expDefault : ℕ := 3

/-- `scaleAssociations(docAssoc, exp = 3)`, the intermediate revision:
min-max normalize, then raise each value to the configurable exponent
`exp`. -/
def scaleAssociationsExp (docAssoc : List ℚ) (exp : ℕ) : List JSNum :=
  let mn := listMin docAssoc
  let mx := listMax docAssoc
  let scaledDA := docAssoc.map (fun value => jsDiv (value - mn) (mx - mn))
  scaledDA.map (fun value => jsPow value exp)

/-- The default of the `scaleBy` parameter of the current
`scaleAssociations`. -/
def scaleByDefault : ℚ := 2

/-- `scaleAssociations(docAssoc, scaleBy = 2)`, the current revision
(js/dataHandling.js): subtract the minimum, multiply by `scaleBy`, divide
by the range, then clamp each value into `[0, 1]` with
`Math.min(1, Math.max(0, val))`. -/
def scaleAssociations (docAssoc : List ℚ) (scaleBy : ℚ) : List JSNum :=
  let mn := listMin docAssoc
  let mx := listMax docAssoc
  let range := mx - mn
  let scaledDA := docAssoc.map (fun val => jsDiv ((val - mn) * scaleBy) range)
  scaledDA.map (fun val => jsMin2 (JSNum.num 1) (jsMax2 (JSNum.num 0) val))

theorem foldl_min_le_init (l : List ℚ) : ∀ a : ℚ, l.foldl min a ≤ a := by
  induction l with
  | nil => intro a; simp
  | cons x xs ih => intro a; exact le_trans (ih (min a x)) (min_le_left a x)

theorem foldl_min_le_of_mem (l : List ℚ) : ∀ (a x : ℚ), x ∈ l → l.foldl min a ≤ x := by
  induction l with
  | nil => intro a x hx; cases hx
  | cons y ys ih =>
    intro a x hx
    rcases List.mem_cons.mp hx with h | h
    · subst h
      exact le_trans (foldl_min_le_init ys (min a x)) (min_le_right a x)
    · exact ih (min a y) x h

theorem le_foldl_max_init (l : List ℚ) : ∀ a : ℚ, a ≤ l.foldl max a := by
  induction l with
  | nil => intro a; simp
  | cons x xs ih => intro a; exact le_trans (le_max_left a x) (ih (max a x))

theorem le_foldl_max_of_mem (l : List ℚ) : ∀ (a x : ℚ), x ∈ l → x ≤ l.foldl max a := by
  induction l with
  | nil => intro a x hx; cases hx
  | cons y ys ih =>
    intro a x hx
    rcases List.mem_cons.mp hx with h | h
    · subst h
      exact le_trans (le_max_right a x) (le_foldl_max_init ys (max a x))
    · exact ih (max a y) x h

theorem listMin_le_of_mem {l : List ℚ} {x : ℚ} (hx : x ∈ l) : listMin l ≤ x := by
  cases l with
  | nil => cases hx
  | cons y ys =>
    rcases List.mem_cons.mp hx with h | h
    · subst h; exact foldl_min_le_init ys x
    · exact foldl_min_le_of_mem ys y x h

theorem le_listMax_of_mem {l : List ℚ} {x : ℚ} (hx : x ∈ l) : x ≤ listMax l := by
  cases l with
  | nil => cases hx
  | cons y ys =>
    rcases List.mem_cons.mp hx with h | h
    · subst h; exact le_foldl_max_init ys x
    · exact le_foldl_max_of_mem ys y x h

theorem listMin_lt_listMax {l : List ℚ} {a b : ℚ} (ha : a ∈ l) (hb : b ∈ l)
    (hab : a ≠ b) : listMin l < listMax l := by
  rcases lt_or_gt_of_ne hab with h | h
  · exact lt_of_le_of_lt (listMin_le_of_mem ha) (lt_of_lt_of_le h (le_listMax_of_mem hb))
  · exact lt_of_le_of_lt (listMin_le_of_mem hb) (lt_of_lt_of_le h (le_listMax_of_mem ha))

theorem scaleAssociations_eq_map (v : List ℚ) (s : ℚ)
    (h : listMax v - listMin v ≠ 0) :
    scaleAssociations v s =
      v.map (fun x =>
        JSNum.num (min 1 (max 0 ((x - listMin v) * s / (listMax v - listMin v))))) := by
  unfold scaleAssociations
  rw [List.map_map]
  refine List.map_congr_left ?_
  intro x _
  simp [Function.comp, jsDiv, h, jsMax2, jsMin2]

theorem scaleAssociationsExp_eq_map (v : List ℚ) (e : ℕ)
    (h : listMax v - listMin v ≠ 0) :
    scaleAssociationsExp v e =
      v.map (fun x => JSNum.num (((x - listMin v) / (listMax v - listMin v)) ^ e)) := by
  unfold scaleAssociationsExp
  rw [List.map_map]
  refine List.map_congr_left ?_
  intro x _
  simp [Function.comp, jsDiv, h, jsPow]

/-- C1: the claim fails on the code. On the constant vector `[5, 5, 5]`
(max = min) every revision of `scaleAssociations` divides `0` by `0` and the
resulting NaN survives both the exponentiation and the
`Math.min(1, Math.max(0, ·))` clamp (both are NaN-propagating), so the
function returns the all-NaN vector instead of a defined constant vector.
This contradicts the function's own doc comment ("Scale the document
associations to a [0,1] range") and the explicit range-ensuring clamp of the
current revision, so the claim is recorded as a code bug, evaluated here at
the failing input. -/
theorem scaleAssociations_constant_input_nan :
    scaleAssociations [5, 5, 5] scaleByDefault = [JSNum.nan, JSNum.nan, JSNum.nan] ∧
    scaleAssociationsExp [5, 5, 5] expDefault = [JSNum.nan, JSNum.nan, JSNum.nan] ∧
    scaleAssociationsOrig [5, 5, 5] = [JSNum.nan, JSNum.nan, JSNum.nan] := by
  refine ⟨?_, ?_, ?_⟩ <;>
    norm_num [scaleAssociations, scaleAssociationsExp, scaleAssociationsOrig,
      scaleByDefault, expDefault, listMin, listMax, jsDiv, jsPow, jsMin2, jsMax2]

/-- C2: for every input vector with at least two distinct values,
`scaleAssociations` (at its default parameter) preserves rank order: the
output is the elementwise image of the input under a single map that is
order-preserving on the input's values (and strictly order-preserving for
the exponent revision), so sorting the outputs matches sorting the
inputs. -/
theorem scaleAssociations_rank_preserving (v : List ℚ)
    (hdist : ∃ a ∈ v, ∃ b ∈ v, a ≠ b) :
    (∃ f : ℚ → ℚ,
        (∀ a ∈ v, ∀ b ∈ v, a ≤ b → f a ≤ f b) ∧
        scaleAssociations v scaleByDefault = v.map (fun x => JSNum.num (f x))) ∧
    (∃ g : ℚ → ℚ,
        (∀ a ∈ v, ∀ b ∈ v, a < b → g a < g b) ∧
        scaleAssociationsExp v expDefault = v.map (fun x => JSNum.num (g x))) := by
  obtain ⟨a, ha, b, hb, hab⟩ := hdist
  have hlt : listMin v < listMax v := listMin_lt_listMax ha hb hab
  have hr : (0 : ℚ) < listMax v - listMin v := sub_pos.mpr hlt
  have hne : listMax v - listMin v ≠ 0 := ne_of_gt hr
  constructor
  · refine ⟨fun x => min 1 (max 0 ((x - listMin v) * scaleByDefault / (listMax v - listMin v))),
      ?_, scaleAssociations_eq_map v scaleByDefault hne⟩
    intro x _ y _ hxy
    have hmono : (x - listMin v) * scaleByDefault / (listMax v - listMin v) ≤
        (y - listMin v) * scaleByDefault / (listMax v - listMin v) :=
      (div_le_div_iff_of_pos_right hr).mpr
        (mul_le_mul_of_nonneg_right (sub_le_sub_right hxy _) (by norm_num [scaleByDefault]))
    exact min_le_min le_rfl (max_le_max le_rfl hmono)
  · refine ⟨fun x => ((x - listMin v) / (listMax v - listMin v)) ^ expDefault,
      ?_, scaleAssociationsExp_eq_map v expDefault hne⟩
    intro x hx y _ hxy
    have h0 : 0 ≤ (x - listMin v) / (listMax v - listMin v) :=
      div_nonneg (sub_nonneg.mpr (listMin_le_of_mem hx)) hr.le
    have hlt2 : (x - listMin v) / (listMax v - listMin v) <
        (y - listMin v) / (listMax v - listMin v) :=
      (div_lt_div_iff_of_pos_right hr).mpr (sub_lt_sub_right hxy _)
    exact pow_lt_pow_left₀ hlt2 h0 (by norm_num [expDefault])

/-- Witness for C2 at the concrete input `[0, 1]`. -/
theorem scaleAssociations_rank_preserving_witness :
    (∃ a ∈ ([0, 1] : List ℚ), ∃ b ∈ ([0, 1] : List ℚ), a ≠ b) ∧
    ((∃ f : ℚ → ℚ,
        (∀ a ∈ ([0, 1] : List ℚ), ∀ b ∈ ([0, 1] : List ℚ), a ≤ b → f a ≤ f b) ∧
        scaleAssociations [0, 1] scaleByDefault = [0, 1].map (fun x => JSNum.num (f x))) ∧
     (∃ g : ℚ → ℚ,
        (∀ a ∈ ([0, 1] : List ℚ), ∀ b ∈ ([0, 1] : List ℚ), a < b → g a < g b) ∧
        scaleAssociationsExp [0, 1] expDefault = [0, 1].map (fun x => JSNum.num (g x)))) :=
  ⟨⟨0, by simp, 1, by simp, by simp⟩,
    scaleAssociations_rank_preserving [0, 1] ⟨0, by simp, 1, by simp, by simp⟩⟩

/-- C3: for every finite non-negative input vector whose maximum exceeds
its minimum, every entry returned by `scaleAssociations` (and by the
exponent revision) is a finite number in `[0, 1]`. -/
theorem scaleAssociations_bounded (v : List ℚ)
    (hpos : ∀ x ∈ v, 0 ≤ x) (hlt : listMin v < listMax v) :
    (∀ y ∈ scaleAssociations v scaleByDefault,
        ∃ q : ℚ, y = JSNum.num q ∧ 0 ≤ q ∧ q ≤ 1) ∧
    (∀ y ∈ scaleAssociationsExp v expDefault,
        ∃ q : ℚ, y = JSNum.num q ∧ 0 ≤ q ∧ q ≤ 1) := by
  have hr : (0 : ℚ) < listMax v - listMin v := sub_pos.mpr hlt
  have hne : listMax v - listMin v ≠ 0 := ne_of_gt hr
  constructor
  · intro y hy
    rw [scaleAssociations_eq_map v _ hne] at hy
    obtain ⟨x, _, rfl⟩ := List.mem_map.mp hy
    exact ⟨_, rfl, le_min zero_le_one (le_max_left 0 _), min_le_left _ _⟩
  · intro y hy
    rw [scaleAssociationsExp_eq_map v _ hne] at hy
    obtain ⟨x, hx, rfl⟩ := List.mem_map.mp hy
    have h0 : 0 ≤ (x - listMin v) / (listMax v - listMin v) :=
      div_nonneg (sub_nonneg.mpr (listMin_le_of_mem hx)) hr.le
    have h1 : (x - listMin v) / (listMax v - listMin v) ≤ 1 :=
      (div_le_one hr).mpr (sub_le_sub_right (le_listMax_of_mem hx) _)
    exact ⟨_, rfl, pow_nonneg h0 _, pow_le_one₀ h0 h1⟩

/-- Witness for C3 at the concrete input `[0, 1]`. -/
theorem scaleAssociations_bounded_witness :
    ((∀ x ∈ ([0, 1] : List ℚ), 0 ≤ x) ∧ listMin [0, 1] < listMax [0, 1]) ∧
    ((∀ y ∈ scaleAssociations [0, 1] scaleByDefault,
        ∃ q : ℚ, y = JSNum.num q ∧ 0 ≤ q ∧ q ≤ 1) ∧
     (∀ y ∈ scaleAssociationsExp [0, 1] expDefault,
        ∃ q : ℚ, y = JSNum.num q ∧ 0 ≤ q ∧ q ≤ 1)) :=
  ⟨⟨by simp, @listMin_lt_listMax [0, 1] 0 1 (by simp) (by simp) (by simp)⟩,
    scaleAssociations_bounded [0, 1] (by simp)
      (@listMin_lt_listMax [0, 1] 0 1 (by simp) (by simp) (by simp))⟩

/-- C4 counterexample: the current `scaleAssociations` is not "min-max
normalization followed by an exponent in the 2–3 range". At the input
`[0, 1, 2]` with the default parameter its middle output is `1` (the value
`(1 − 0)·2 / (2 − 0) = 1` of the linear-times-2-then-clamp procedure),
while min-max normalization followed by exponent 2 or 3 would give
`(1/2)^2 = 1/4` or `(1/2)^3 = 1/8`. -/
theorem scaleAssociations_not_powerlaw :
    scaleAssociations [0, 1, 2] scaleByDefault =
      [JSNum.num 0, JSNum.num 1, JSNum.num 1] ∧
    JSNum.num ((((1 : ℚ) - listMin [0, 1, 2]) / (listMax [0, 1, 2] - listMin [0, 1, 2])) ^ 2) ≠
      JSNum.num 1 ∧
    JSNum.num ((((1 : ℚ) - listMin [0, 1, 2]) / (listMax [0, 1, 2] - listMin [0, 1, 2])) ^ 3) ≠
      JSNum.num 1 := by
  refine ⟨?_, ?_, ?_⟩ <;>
    norm_num [scaleAssociations, scaleByDefault, listMin, listMax, jsDiv, jsMin2, jsMax2]

/-- C4 amended: for inputs with max > min, the earlier revision
`scaleAssociationsExp` is exactly min-max normalization followed by the
configurable exponent (default 3), mapping `x` to
`((x − min)/(max − min))^e`; the current `scaleAssociations` instead maps
`x` to `min 1 (max 0 ((x − min)·scaleBy/(max − min)))` — subtract the
minimum, multiply by the configurable factor (default 2), divide by the
range, and clamp to `[0, 1]`. -/
theorem scaleAssociations_closed_forms (v : List ℚ) (s : ℚ) (e : ℕ)
    (hlt : listMin v < listMax v) :
    scaleAssociationsExp v e =
      v.map (fun x => JSNum.num (((x - listMin v) / (listMax v - listMin v)) ^ e)) ∧
    scaleAssociations v s =
      v.map (fun x =>
        JSNum.num (min 1 (max 0 ((x - listMin v) * s / (listMax v - listMin v))))) := by
  have hne : listMax v - listMin v ≠ 0 := ne_of_gt (sub_pos.mpr hlt)
  exact ⟨scaleAssociationsExp_eq_map v e hne, scaleAssociations_eq_map v s hne⟩

/-- Witness for the amended C4 at the concrete input `[0, 1]` with the
default parameters. -/
theorem scaleAssociations_closed_forms_witness :
    listMin [0, 1] < listMax [0, 1] ∧
    (scaleAssociationsExp [0, 1] expDefault =
      [0, 1].map (fun x =>
        JSNum.num (((x - listMin [0, 1]) / (listMax [0, 1] - listMin [0, 1])) ^ expDefault)) ∧
     scaleAssociations [0, 1] scaleByDefault =
      [0, 1].map (fun x =>
        JSNum.num (min 1 (max 0
          ((x - listMin [0, 1]) * scaleByDefault / (listMax [0, 1] - listMin [0, 1])))))) :=
  ⟨@listMin_lt_listMax [0, 1] 0 1 (by simp) (by simp) (by simp),
    scaleAssociations_closed_forms [0, 1] scaleByDefault expDefault
      (@listMin_lt_listMax [0, 1] 0 1 (by simp) (by simp) (by simp))⟩

/-- A parsed CSV as delivered by Papa Parse with `header: true`:
`fields` is `meta.fields` (the header row) and `data` the list of row
records. -/
structure CSVData where
  fields : List String
  data : List (List String)

/-- The front end's global state: `csvData`, `queryMap` (a JS object,
modelled as an insertion-ordered association list), `docAssoc`, and the
current value of the `normBy` range input. -/
structure AppState where
  csvData : CSVData
  queryMap : List (String × Bool)
  docAssoc : List JSNum
  knobValue : ℚ

/-- The keys of a query map, in insertion order (`Object.keys`). -/
def queryKeys (m : List (String × Bool)) : List String := m.map Prod.fst

/-- Property assignment `m[k] = v` on a JS object: updating an existing
key keeps its position, a new key is appended at the end. -/
def setKey (m : List (String × Bool)) (k : String) (v : Bool) :
    List (String × Bool) :=
  if k ∈ m.map Prod.fst then
    m.map (fun p => if p.1 = k then (k, v) else p)
  else m ++ [(k, v)]

/-- `makeQueryMap`: build the query map, assigning
`queryMap[header.trim()] = false` for each header cell in order. -/
def makeQueryMap (fields : List String) : List (String × Bool) :=
  fields.foldl (fun m header => setKey m header.trim false) []

/-- The `min` attribute of the `normBy` range input (`min="0.0001"`). -/
def knobMin : ℚ := 1 / 10000

/-- The `max` attribute of the `normBy` range input (`max="1"`). -/
def knobMax : ℚ := 1

/-- The values the `normBy` range input can hold: an HTML range input
clamps its value into `[min, max]`. -/
def knobAdmissible (v : ℚ) : Prop := knobMin ≤ v ∧ v ≤ knobMax

/-- The form data POSTed by the front end: the form's own `normBy` field
plus the appended `csvData` and `query` (the values of `queryMap`). -/
structure FormData where
  normBy : ℚ
  csvData : CSVData
  query : List Bool

/-- `compileForm`: build the form data from the page state —
`new FormData(form)` picks up the `normBy` input, then `csvData` and
`query = Object.values(queryMap)` are appended. -/
def compileForm (st : AppState) : FormData :=
  ⟨st.knobValue, st.csvData, st.queryMap.map Prod.snd⟩

/-- The page-load initializer (index.html): populate `queryMap` from the
CSV and set `docAssoc` to an array of zeros sized to the number of rows. -/
def init (csv : CSVData) (knobValue : ℚ) : AppState :=
  ⟨csv, makeQueryMap csv.fields, List.replicate csv.data.length (JSNum.num 0), knobValue⟩

/-- The alpha channel used by `displayCSV` for the data cells of each row:
`docAssoc[rowIndex]` (an out-of-range JS index reads `undefined`, collapsed
here into the non-finite element). -/
def displayAlphas (csv : CSVData) (docAssoc : List JSNum) : List JSNum :=
  (List.range csv.data.length).map (fun rowIndex => docAssoc.getD rowIndex JSNum.nan)

/-- The success continuation of `submitForm`: reassign `docAssoc` to the
scaled associations of the response, then re-render the CSV (returning the
alpha values the render uses). -/
def submitFormSuccess (st : AppState) (associations : List ℚ) :
    AppState × List JSNum :=
  let st2 := AppState.mk st.csvData st.queryMap
    (scaleAssociations associations scaleByDefault) st.knobValue
  (st2, displayAlphas st2.csvData st2.docAssoc)

/-- C5: every query request built by the front end carries a `normBy`
value in the open-closed interval (0, 1]: the range input's attributes
constrain the knob value to `[1/10000, 1]`, so the value `compileForm`
submits is strictly positive and at most 1. -/
theorem compileForm_normBy_in_unit (st : AppState)
    (h : knobAdmissible st.knobValue) :
    0 < (compileForm st).normBy ∧ (compileForm st).normBy ≤ 1 :=
  ⟨lt_of_lt_of_le (by norm_num [knobMin]) h.1, h.2⟩

/-- Witness for C5 at a concrete state holding the knob's default value
`0.5`. -/
theorem compileForm_normBy_in_unit_witness :
    knobAdmissible (AppState.mk (CSVData.mk [] []) [] [] (1 / 2)).knobValue ∧
    (0 < (compileForm (AppState.mk (CSVData.mk [] []) [] [] (1 / 2))).normBy ∧
      (compileForm (AppState.mk (CSVData.mk [] []) [] [] (1 / 2))).normBy ≤ 1) :=
  ⟨by norm_num [knobAdmissible, knobMin, knobMax],
    compileForm_normBy_in_unit (AppState.mk (CSVData.mk [] []) [] [] (1 / 2))
      (by norm_num [knobAdmissible, knobMin, knobMax])⟩

/-- C6: upon a successful response, `submitForm` reassigns `docAssoc` to
the scaled associations and only then re-renders, so the alpha values the
render uses are exactly the scaled associations — never the raw response
vector. -/
theorem submitForm_displays_scaled (st : AppState) (associations : List ℚ) :
    (submitFormSuccess st associations).1.docAssoc =
      scaleAssociations associations scaleByDefault ∧
    (submitFormSuccess st associations).2 =
      displayAlphas st.csvData (scaleAssociations associations scaleByDefault) :=
  ⟨rfl, rfl⟩

theorem queryKeys_setKey (m : List (String × Bool)) (k : String) (v : Bool) :
    queryKeys (setKey m k v) =
      if k ∈ queryKeys m then queryKeys m else queryKeys m ++ [k] := by
  unfold setKey queryKeys
  by_cases h : k ∈ m.map Prod.fst
  · rw [if_pos h, if_pos h, List.map_map]
    apply List.map_congr_left
    intro p _
    by_cases hpk : p.1 = k
    · simp [Function.comp, hpk]
    · simp [Function.comp, hpk]
  · rw [if_neg h, if_neg h, List.map_append]
    rfl

theorem queryKeys_setKey_nodup {m : List (String × Bool)}
    (hm : (queryKeys m).Nodup) (k : String) (v : Bool) :
    (queryKeys (setKey m k v)).Nodup := by
  rw [queryKeys_setKey]
  by_cases h : k ∈ queryKeys m
  · rwa [if_pos h]
  · rw [if_neg h]
    exact hm.append (List.nodup_singleton k) (by simpa using h)

theorem queryKeys_setKey_toFinset (m : List (String × Bool)) (k : String) (v : Bool) :
    (queryKeys (setKey m k v)).toFinset = insert k (queryKeys m).toFinset := by
  rw [queryKeys_setKey]
  by_cases h : k ∈ queryKeys m
  · rw [if_pos h]
    exact (Finset.insert_eq_self.mpr (List.mem_toFinset.mpr h)).symm
  · rw [if_neg h]
    ext x
    simp [or_comm]

theorem makeQueryMap_loop (l : List String) :
    ∀ m : List (String × Bool), (queryKeys m).Nodup →
      (queryKeys (l.foldl (fun acc header => setKey acc header.trim false) m)).Nodup ∧
      (queryKeys (l.foldl (fun acc header => setKey acc header.trim false) m)).toFinset =
        (queryKeys m).toFinset ∪ (l.map String.trim).toFinset := by
  induction l with
  | nil => intro m hm; simpa using hm
  | cons h t ih =>
    intro m hm
    obtain ⟨n1, e1⟩ := ih (setKey m h.trim false) (queryKeys_setKey_nodup hm _ _)
    refine ⟨n1, ?_⟩
    rw [List.foldl_cons, e1, queryKeys_setKey_toFinset]
    ext x
    simp

theorem makeQueryMap_keys_nodup (fields : List String) :
    (queryKeys (makeQueryMap fields)).Nodup :=
  (makeQueryMap_loop fields [] (by simp [queryKeys])).1

theorem makeQueryMap_keys_toFinset (fields : List String) :
    (queryKeys (makeQueryMap fields)).toFinset = (fields.map String.trim).toFinset := by
  have h := (makeQueryMap_loop fields [] (by simp [queryKeys])).2
  simpa [queryKeys] using h

theorem makeQueryMap_length (fields : List String) :
    (makeQueryMap fields).length = (fields.map String.trim).toFinset.card := by
  have h1 : (makeQueryMap fields).length = (queryKeys (makeQueryMap fields)).length := by
    simp [queryKeys]
  rw [h1, ← List.toFinset_card_of_nodup (makeQueryMap_keys_nodup fields),
    makeQueryMap_keys_toFinset]

theorem toFinset_card_eq_length_iff {α : Type _} [DecidableEq α] (l : List α) :
    l.toFinset.card = l.length ↔ l.Nodup := by
  constructor
  · intro h
    have hs : List.Sublist l.dedup l := List.dedup_sublist l
    have hl : l.dedup.length = l.length := by rw [← List.card_toFinset]; exact h
    exact List.dedup_eq_self.mp (hs.eq_of_length hl)
  · exact fun h => List.toFinset_card_of_nodup h

/-- C8: the query array submitted by `compileForm` has one entry per
pairwise-distinct trimmed header name; it has one boolean per CSV column
exactly when no two headers coincide after trimming, because duplicate
trimmed headers collapse into a single key of the query map. -/
theorem compileForm_query_length (csv : CSVData) (k : ℚ) :
    ((compileForm (init csv k)).query).length =
      (csv.fields.map String.trim).toFinset.card ∧
    (((compileForm (init csv k)).query).length = csv.fields.length ↔
      (csv.fields.map String.trim).Nodup) := by
  have hq : ((compileForm (init csv k)).query).length = (makeQueryMap csv.fields).length := by
    simp [compileForm, init]
  constructor
  · rw [hq, makeQueryMap_length]
  · rw [hq, makeQueryMap_length]
    have hlen : (csv.fields.map String.trim).length = csv.fields.length :=
      List.length_map _ _
    rw [← hlen]
    exact toFinset_card_eq_length_iff _

theorem makeQueryMap_snd_false_loop (l : List String) :
    ∀ m : List (String × Bool), (∀ p ∈ m, p.2 = false) →
      ∀ p ∈ l.foldl (fun acc header => setKey acc header.trim false) m, p.2 = false := by
  induction l with
  | nil => intro m hm; simpa using hm
  | cons h t ih =>
    intro m hm
    rw [List.foldl_cons]
    refine ih _ ?_
    intro p hp
    unfold setKey at hp
    by_cases hin : h.trim ∈ m.map Prod.fst
    · rw [if_pos hin] at hp
      obtain ⟨q, hq, rfl⟩ := List.mem_map.mp hp
      by_cases hqk : q.1 = h.trim
      · simp [hqk]
      · simpa [hqk] using hm q hq
    · rw [if_neg hin] at hp
      rcases List.mem_append.mp hp with h1 | h1
      · exact hm p h1
      · simp only [List.mem_singleton] at h1
        rw [h1]

/-- C9: `makeQueryMap` only ever stores the value `false`, so the first
query request built from a freshly loaded CSV submits the all-false
term-selection mask. -/
theorem initial_query_all_false (csv : CSVData) (k : ℚ) :
    (compileForm (init csv k)).query =
      List.replicate (makeQueryMap csv.fields).length false := by
  have hall : ∀ p ∈ makeQueryMap csv.fields, p.2 = false :=
    makeQueryMap_snd_false_loop csv.fields [] (by simp)
  apply List.eq_replicate_iff.mpr
  constructor
  · simp [compileForm, init]
  · intro b hb
    simp only [compileForm, init] at hb
    obtain ⟨p, hp, rfl⟩ := List.mem_map.mp hb
    exact hall p hp

/-- Subtraction on JS numbers (NaN-propagating). -/
def jsSub (a b : JSNum) : JSNum :=
  match a, b with
  | JSNum.num x, JSNum.num y => JSNum.num (x - y)
  | _, _ => JSNum.nan

/-- Multiplication on JS numbers (NaN-propagating). -/
def jsMul (a b : JSNum) : JSNum :=
  match a, b with
  | JSNum.num x, JSNum.num y => JSNum.num (x * y)
  | _, _ => JSNum.nan

/-- Division lifted to JS numbers (NaN-propagating, `jsDiv` on finite
operands). -/
def jsDiv2 (a b : JSNum) : JSNum :=
  match a, b with
  | JSNum.num x, JSNum.num y => jsDiv x y
  | _, _ => JSNum.nan

/-- `Math.min(...arr)` over JS numbers (default for the empty spread as in
`listMin`). -/
def jsMinList (l : List JSNum) : JSNum :=
  match l with
  | [] => JSNum.num 0
  | x :: xs => xs.foldl jsMin2 x

/-- `Math.max(...arr)` over JS numbers (default for the empty spread as in
`listMax`). -/
def jsMaxList (l : List JSNum) : JSNum :=
  match l with
  | [] => JSNum.num 0
  | x :: xs => xs.foldl jsMax2 x

/-- A store of JS arrays, indexed by allocation order; used to state frame
properties of functions that receive an array reference. -/
abbrev Heap := List (List JSNum)

/-- Read the array behind a reference. -/
def heapRead (h : Heap) (r : ℕ) : List JSNum := h.getD r []

/-- Allocate a fresh array (as `Array.prototype.map` does) and return its
reference. -/
def heapAlloc (h : Heap) (a : List JSNum) : Heap × ℕ := (h ++ [a], h.length)

/-- The current `scaleAssociations` at the store level: it reads the
argument array, and each of its two `map` calls allocates a fresh array;
no write to an existing array occurs. -/
def scaleAssociationsH (h : Heap) (r : ℕ) (scaleBy : ℚ) : Heap × ℕ :=
  let docAssoc := heapRead h r
  let mn := jsMinList docAssoc
  let mx := jsMaxList docAssoc
  let range := jsSub mx mn
  let step1 := heapAlloc h
    (docAssoc.map (fun val => jsDiv2 (jsMul (jsSub val mn) (JSNum.num scaleBy)) range))
  let step2 := heapAlloc step1.1
    ((heapRead step1.1 step1.2).map
      (fun val => jsMin2 (JSNum.num 1) (jsMax2 (JSNum.num 0) val)))
  (step2.1, step2.2)

theorem heapRead_append_left (l l' : Heap) (r : ℕ) (hr : r < l.length) :
    heapRead (l ++ l') r = heapRead l r :=
  List.getD_append l l' [] r hr

theorem heapRead_append_length (l : Heap) (a : List JSNum) :
    heapRead (l ++ [a]) l.length = a := by
  induction l with
  | nil => rfl
  | cons x xs ih => simpa [heapRead] using ih

theorem foldl_jsMin2_map_num (xs : List ℚ) :
    ∀ a : ℚ, (xs.map JSNum.num).foldl jsMin2 (JSNum.num a) = JSNum.num (xs.foldl min a) := by
  induction xs with
  | nil => intro a; rfl
  | cons x t ih => intro a; simpa [jsMin2] using ih (min a x)

theorem foldl_jsMax2_map_num (xs : List ℚ) :
    ∀ a : ℚ, (xs.map JSNum.num).foldl jsMax2 (JSNum.num a) = JSNum.num (xs.foldl max a) := by
  induction xs with
  | nil => intro a; rfl
  | cons x t ih => intro a; simpa [jsMax2] using ih (max a x)

theorem jsMinList_map_num (raw : List ℚ) :
    jsMinList (raw.map JSNum.num) = JSNum.num (listMin raw) := by
  cases raw with
  | nil => rfl
  | cons x xs => simpa [jsMinList, listMin] using foldl_jsMin2_map_num xs x

theorem jsMaxList_map_num (raw : List ℚ) :
    jsMaxList (raw.map JSNum.num) = JSNum.num (listMax raw) := by
  cases raw with
  | nil => rfl
  | cons x xs => simpa [jsMaxList, listMax] using foldl_jsMax2_map_num xs x

theorem scaleAssociationsH_eval (h : Heap) (r : ℕ) (s : ℚ) (raw : List ℚ)
    (hraw : heapRead h r = raw.map JSNum.num) :
    scaleAssociationsH h r s =
      ((h ++ [raw.map (fun x =>
          jsDiv ((x - listMin raw) * s) (listMax raw - listMin raw))]) ++
        [scaleAssociations raw s], h.length + 1) := by
  have hmap1 : (raw.map JSNum.num).map (fun val =>
      jsDiv2 (jsMul (jsSub val (jsMinList (raw.map JSNum.num))) (JSNum.num s))
        (jsSub (jsMaxList (raw.map JSNum.num)) (jsMinList (raw.map JSNum.num)))) =
      raw.map (fun x => jsDiv ((x - listMin raw) * s) (listMax raw - listMin raw)) := by
    rw [jsMinList_map_num, jsMaxList_map_num, List.map_map]
    apply List.map_congr_left
    intro x _
    simp [Function.comp, jsSub, jsMul, jsDiv2]
  simp only [scaleAssociationsH, heapAlloc, hraw, heapRead_append_length, hmap1]
  simp only [scaleAssociations]
  simp [List.length_append]

/-- C10: `scaleAssociations` never mutates its argument. At the store
level, the argument array's contents after the call equal its contents
before the call, the returned reference is a fresh one, and the freshly
built array holds exactly the value of the pure `scaleAssociations`. -/
theorem scaleAssociationsH_frame (h : Heap) (r : ℕ) (s : ℚ) (raw : List ℚ)
    (hr : r < h.length) (hraw : heapRead h r = raw.map JSNum.num) :
    heapRead (scaleAssociationsH h r s).1 r = raw.map JSNum.num ∧
    (scaleAssociationsH h r s).2 ≠ r ∧
    heapRead (scaleAssociationsH h r s).1 (scaleAssociationsH h r s).2 =
      scaleAssociations raw s := by
  rw [scaleAssociationsH_eval h r s raw hraw]
  have hr1 : r < (h ++ [raw.map (fun x =>
      jsDiv ((x - listMin raw) * s) (listMax raw - listMin raw))]).length := by
    simp
    omega
  refine ⟨?_, ?_, ?_⟩
  · rw [heapRead_append_left _ _ _ hr1, heapRead_append_left _ _ _ hr, hraw]
  · simp
    omega
  · have hlen : (h ++ [raw.map (fun x =>
        jsDiv ((x - listMin raw) * s) (listMax raw - listMin raw))]).length =
          h.length + 1 := by simp
    calc heapRead ((h ++ [raw.map (fun x =>
            jsDiv ((x - listMin raw) * s) (listMax raw - listMin raw))]) ++
          [scaleAssociations raw s]) (h.length + 1) =
        heapRead ((h ++ [raw.map (fun x =>
            jsDiv ((x - listMin raw) * s) (listMax raw - listMin raw))]) ++
          [scaleAssociations raw s]) (h ++ [raw.map (fun x =>
            jsDiv ((x - listMin raw) * s) (listMax raw - listMin raw))]).length := by
          rw [hlen]
      _ = scaleAssociations raw s := heapRead_append_length _ _

/-- Witness for C10: a one-cell store holding the array `[5]`. -/
theorem scaleAssociationsH_frame_witness :
    (0 < ([[JSNum.num 5]] : Heap).length ∧
      heapRead [[JSNum.num 5]] 0 = [(5 : ℚ)].map JSNum.num) ∧
    (heapRead (scaleAssociationsH [[JSNum.num 5]] 0 2).1 0 = [(5 : ℚ)].map JSNum.num ∧
      (scaleAssociationsH [[JSNum.num 5]] 0 2).2 ≠ 0 ∧
      heapRead (scaleAssociationsH [[JSNum.num 5]] 0 2).1
          (scaleAssociationsH [[JSNum.num 5]] 0 2).2 =
        scaleAssociations [5] 2) :=
  ⟨⟨Nat.zero_lt_one, rfl⟩,
    scaleAssociationsH_frame [[JSNum.num 5]] 0 2 [5] Nat.zero_lt_one rfl⟩

open Matrix

/-- Modelled from the spec: the backend's Corpus Matrix Builder is not
among the front-end sources, so it is embedded from §4.1 — the connection
matrix of a D×T term-document matrix `M` is the symmetric block matrix
with term-term block `Mᵀ·M`, document-document block `M·Mᵀ`, and the
term-document quadrants `Mᵀ` (top-right) and `M` (bottom-left).
`Sum.inl` indexes terms, `Sum.inr` documents. -/
def connectionMatrix {D T : ℕ} (M : Matrix (Fin D) (Fin T) ℚ) :
    Matrix (Fin T ⊕ Fin D) (Fin T ⊕ Fin D) ℚ :=
  Matrix.fromBlocks (Mᵀ * M) Mᵀ M (M * Mᵀ)

/-- Modelled from the spec: the Normalization Engine's degree vector, the
row sums of the connection matrix (§4.2). -/
def degree {D T : ℕ} (M : Matrix (Fin D) (Fin T) ℚ) (i : Fin T ⊕ Fin D) : ℚ :=
  ∑ j, connectionMatrix M i j

/-- Modelled from the spec: the Normalization Engine produces the
symmetric conjugation `R·A·R` of the connection matrix by a diagonal
rescaling matrix (§4.2). The spec prescribes rescaling entries
`(degree i)^(−s)` with `0` at degree-0 nodes; that real power is not
computable, so the development is parameterized over an arbitrary
rescaling vector `resc`, which covers the prescribed one in particular. -/
def normalizedConnection {D T : ℕ} (M : Matrix (Fin D) (Fin T) ℚ)
    (resc : Fin T ⊕ Fin D → ℚ) : Matrix (Fin T ⊕ Fin D) (Fin T ⊕ Fin D) ℚ :=
  fun i j => resc i * connectionMatrix M i j * resc j

/-- Modelled from the spec: `word_associations()` returns the T×T
term-term quadrant of the normalized matrix, no query applied (§4.3). -/
def word_associations {D T : ℕ} (M : Matrix (Fin D) (Fin T) ℚ)
    (resc : Fin T ⊕ Fin D → ℚ) : Matrix (Fin T) (Fin T) ℚ :=
  fun i j => normalizedConnection M resc (Sum.inl i) (Sum.inl j)

/-- Modelled from the spec: `document_associations()` returns the D×D
document-document quadrant of the normalized matrix (§4.3). -/
def document_associations {D T : ℕ} (M : Matrix (Fin D) (Fin T) ℚ)
    (resc : Fin T ⊕ Fin D → ℚ) : Matrix (Fin D) (Fin D) ℚ :=
  fun i j => normalizedConnection M resc (Sum.inr i) (Sum.inr j)

theorem connectionMatrix_symm {D T : ℕ} (M : Matrix (Fin D) (Fin T) ℚ) :
    (connectionMatrix M)ᵀ = connectionMatrix M := by
  unfold connectionMatrix
  rw [Matrix.fromBlocks_transpose, Matrix.transpose_mul, Matrix.transpose_mul,
    Matrix.transpose_transpose]

theorem connectionMatrix_apply_comm {D T : ℕ} (M : Matrix (Fin D) (Fin T) ℚ)
    (i j : Fin T ⊕ Fin D) : connectionMatrix M j i = connectionMatrix M i j := by
  have h := congrFun (congrFun (connectionMatrix_symm M) i) j
  simpa [Matrix.transpose_apply] using h

theorem normalizedConnection_apply_comm {D T : ℕ} (M : Matrix (Fin D) (Fin T) ℚ)
    (resc : Fin T ⊕ Fin D → ℚ) (i j : Fin T ⊕ Fin D) :
    normalizedConnection M resc j i = normalizedConnection M resc i j := by
  unfold normalizedConnection
  rw [connectionMatrix_apply_comm]
  ring

/-- C7: for every corpus (and every rescaling vector, in particular the
spec's degree-exponent one), the term-term and document-document
association matrices equal their own transposes. -/
theorem associations_symmetric {D T : ℕ} (M : Matrix (Fin D) (Fin T) ℚ)
    (resc : Fin T ⊕ Fin D → ℚ) :
    (word_associations M resc)ᵀ = word_associations M resc ∧
    (document_associations M resc)ᵀ = document_associations M resc := by
  constructor
  · ext i j
    rw [Matrix.transpose_apply]
    exact normalizedConnection_apply_comm M resc (Sum.inl i) (Sum.inl j)
  · ext i j
    rw [Matrix.transpose_apply]
    exact normalizedConnection_apply_comm M resc (Sum.inr i) (Sum.inr j)
